import Mathlib

/-!
Verification development for the json-workbench batch transform engine.

The TypeScript source operates on untyped JSON-like trees (`unknown` values).
We embed those trees as the inductive type `Value` below and translate the
worker's batch operations (`applyBatch` and its helpers in the worker module),
the path-addressed mutation layer (`src/utils/objectPath.ts`), and the filter
engine (`recalculateFilteredData` / `commitFilterToData` in
`src/store/fileStore.ts`) as executable Lean functions.

Modelling conventions, chosen to mirror JavaScript semantics:
* `undef` represents JavaScript `undefined` (distinct from a stored `null`);
  a missing field reads as `undef`, and a field can hold an explicit `undef`.
* Objects are insertion-ordered association lists; property assignment
  updates an existing key in place and otherwise appends, as JS does.
* Arrays carry, besides their elements, an association list of non-index
  properties (`props`): JS allows assigning a non-numeric key on an array
  (`arr["foo"] = v`), which `setAtPath` does when a string path segment does
  not denote an index.  Array holes created by writing past the end are
  represented by `undef` elements.
* Numbers are embedded as integers (`vnum`); the ingestion parser is
  JSONbig with `storeAsString`, so integer literals beyond the double-safe
  range become plain strings, and non-integer numeric literals are carried
  opaquely as their source text in the `vdec` constructor.
-/

/-- A JavaScript value as manipulated by the worker: `undefined`, `null`,
booleans, integers, opaque non-integer numeric literals, strings, arrays
(elements plus JS non-index properties), and insertion-ordered objects. -/
inductive Value where
  | undef : Value
  | vnull : Value
  | vbool : Bool → Value
  | vnum : Int → Value
  | vdec : String → Value
  | vstr : String → Value
  | varr : List Value → List (String × Value) → Value
  | vobj : List (String × Value) → Value

mutual

/-- Structural size used as termination measure for the recursive transforms;
a string weighs its length plus one so that a JSON tree parsed from a string
is smaller than the string itself. -/
def Value.msize : Value → Nat
  | .undef => 1
  | .vnull => 1
  | .vbool _ => 1
  | .vnum _ => 1
  | .vdec _ => 1
  | .vstr s => s.length + 1
  | .varr xs props => 1 + Value.msizeList xs + Value.msizeFields props
  | .vobj fields => 1 + Value.msizeFields fields

/-- Total size of a list of values. -/
def Value.msizeList : List Value → Nat
  | [] => 0
  | x :: xs => Value.msize x + Value.msizeList xs

/-- Total size of the values of an association list. -/
def Value.msizeFields : List (String × Value) → Nat
  | [] => 0
  | (_, x) :: fs => Value.msize x + Value.msizeFields fs

end

theorem Value.msize_pos : ∀ v : Value, 0 < v.msize := by
  intro v
  cases v <;> simp only [Value.msize] <;> omega

theorem Value.msizeList_cons (x : Value) (xs : List Value) :
    Value.msizeList (x :: xs) = x.msize + Value.msizeList xs := rfl

theorem Value.msize_lt_of_mem_list {x : Value} {xs : List Value} (h : x ∈ xs) :
    x.msize ≤ Value.msizeList xs := by
  induction xs with
  | nil => cases h
  | cons y ys ih =>
    rw [List.mem_cons] at h
    rcases h with rfl | h
    · simp only [Value.msizeList]; omega
    · have := ih h
      simp only [Value.msizeList]
      omega

theorem Value.msize_lt_of_mem_fields {p : String × Value} {fs : List (String × Value)}
    (h : p ∈ fs) : p.2.msize ≤ Value.msizeFields fs := by
  induction fs with
  | nil => cases h
  | cons q qs ih =>
    rw [List.mem_cons] at h
    rcases h with rfl | h
    · cases p with
      | mk k x => simp only [Value.msizeFields]; omega
    · have := ih h
      cases q with
      | mk k x =>
        simp only [Value.msizeFields]
        omega

/-- Structural induction principle for `Value` with membership hypotheses for
the nested lists. -/
theorem Value.inductionOn {P : Value → Prop}
    (hundef : P .undef) (hnull : P .vnull) (hbool : ∀ b, P (.vbool b))
    (hnum : ∀ n, P (.vnum n)) (hdec : ∀ s, P (.vdec s)) (hstr : ∀ s, P (.vstr s))
    (harr : ∀ xs props, (∀ x ∈ xs, P x) → (∀ p ∈ props, P p.2) → P (.varr xs props))
    (hobj : ∀ fields, (∀ p ∈ fields, P p.2) → P (.vobj fields)) :
    ∀ v, P v := by
  intro v
  refine Value.rec (motive_1 := fun v => P v)
    (motive_2 := fun xs => ∀ x ∈ xs, P x)
    (motive_3 := fun fs => ∀ p ∈ fs, P p.2)
    (motive_4 := fun p => P p.2)
    hundef hnull hbool hnum hdec hstr harr hobj
    ?_ ?_ ?_ ?_ ?_ v
  · intro x hx; cases hx
  · intro y ys hy hys x hx
    rw [List.mem_cons] at hx
    rcases hx with rfl | hx
    · exact hy
    · exact hys x hx
  · intro p hp; cases hp
  · intro q qs hq hqs p hp
    rw [List.mem_cons] at hp
    rcases hp with rfl | hp
    · exact hq
    · exact hqs p hp
  · intro k x hx; exact hx

/-! ## JavaScript object / array primitives -/

/-- JS property read from an insertion-ordered field list; a missing key
reads as `undefined`. -/
def objGet (fields : List (String × Value)) (key : String) : Value :=
  match fields with
  | [] => .undef
  | (k, v) :: rest => if k = key then v else objGet rest key

/-- JS property assignment: overwrite an existing binding in place, else
append the new binding at the end (insertion order). -/
def objSet (fields : List (String × Value)) (key : String) (v : Value) :
    List (String × Value) :=
  match fields with
  | [] => [(key, v)]
  | (k, w) :: rest => if k = key then (k, v) :: rest else (k, w) :: objSet rest key v

/-- JS `key in record` membership test. -/
def objHas (fields : List (String × Value)) (key : String) : Bool :=
  match fields with
  | [] => false
  | (k, _) :: rest => k = key || objHas rest key

/-- JS `delete record[key]`. -/
def objRemove (fields : List (String × Value)) (key : String) :
    List (String × Value) :=
  match fields with
  | [] => []
  | (k, v) :: rest => if k = key then objRemove rest key else (k, v) :: objRemove rest key

/-- JS `next[index] = v` on an array: writing past the end fills the gap
with holes (`undef`). -/
def listSet (xs : List Value) (i : Nat) (v : Value) : List Value :=
  match xs, i with
  | [], 0 => [v]
  | [], Nat.succ n => .undef :: listSet [] n v
  | _ :: rest, 0 => v :: rest
  | x :: rest, Nat.succ n => x :: listSet rest n v

/-! ## PathAddressing (`src/utils/objectPath.ts`) -/

/-- A path segment: a string (mapping key) or a numeric list index, matching
the source's `PathPart = string | number`. -/
inductive PathPart where
  | str : String → PathPart
  | num : Nat → PathPart

/-- Array-index coercion `typeof head === "number" ? head : Number(head)`.
We accept canonical decimal numerals; any other string behaves as JS `NaN`
does for arrays — the write lands on a non-index property of the array.
JS keys that property by the string form of the coerced number; we key it by
the original segment string, which agrees with JS whenever one segment is
used for both the write and the read. -/
def PathPart.arrIndex : PathPart → Option Nat
  | .num n => some n
  | .str s => s.toNat?

/-- Mapping-key coercion `String(head)`. -/
def PathPart.objKey : PathPart → String
  | .str s => s
  | .num n => toString n

/-- Embedding of `setAtPath`: with an empty path the whole root is replaced;
on an array the head segment is coerced to an index; on a mapping it is used
as a string key; a non-container target is replaced by a freshly materialized
container chosen by the head segment's kind (list for a numeric segment,
mapping otherwise). -/
def setAtPath : Value → List PathPart → Value → Value
  | _, [], x => x
  | .varr xs props, head :: rest, x =>
    match head.arrIndex with
    | some i => .varr (listSet xs i (setAtPath (xs.getD i .undef) rest x)) props
    | none => .varr xs (objSet props head.objKey (setAtPath (objGet props head.objKey) rest x))
  | .vobj fields, head :: rest, x =>
    .vobj (objSet fields head.objKey (setAtPath (objGet fields head.objKey) rest x))
  | _, .num i :: rest, x =>
    .varr (listSet [] i (setAtPath .undef rest x)) []
  | _, .str s :: rest, x =>
    .vobj [(s, setAtPath .undef rest x)]

/-- Embedding of `getAtPath`: a missing segment, or a traversal into `null`,
`undefined` or a primitive, yields `undefined`. -/
def getAtPath : Value → List PathPart → Value
  | v, [] => v
  | .undef, _ :: _ => .undef
  | .vnull, _ :: _ => .undef
  | .varr xs props, head :: rest =>
    (match head.arrIndex with
     | some i => getAtPath (xs.getD i .undef) rest
     | none => getAtPath (objGet props head.objKey) rest)
  | .vobj fields, head :: rest => getAtPath (objGet fields head.objKey) rest
  | _, _ :: _ => .undef

theorem objGet_objSet (fields : List (String × Value)) (key : String) (v : Value) :
    objGet (objSet fields key v) key = v := by
  induction fields with
  | nil => simp [objGet, objSet]
  | cons p rest ih =>
    cases p with
    | mk k w =>
      by_cases h : k = key
      · simp [objGet, objSet, h]
      · simp [objGet, objSet, h, ih]

theorem listSet_getD (xs : List Value) (i : Nat) (v : Value) :
    ((listSet xs i v)[i]?).getD .undef = v := by
  induction xs generalizing i with
  | nil =>
    induction i with
    | zero => simp [listSet]
    | succ n ih => simpa [listSet] using ih
  | cons x rest ih =>
    cases i with
    | zero => simp [listSet]
    | succ n => simpa [listSet] using ih n

theorem setAtPath_nil (v x : Value) : setAtPath v [] x = x := by
  cases v <;> rfl

theorem getAtPath_nil (v : Value) : getAtPath v [] = v := by
  cases v <;> rfl

theorem getAtPath_setAtPath (v : Value) (p : List PathPart) (x : Value) :
    getAtPath (setAtPath v p x) p = x := by
  induction p generalizing v with
  | nil => rw [setAtPath_nil, getAtPath_nil]
  | cons head rest ih =>
    cases v with
    | varr xs props =>
      cases h : head.arrIndex with
      | some i => simp [setAtPath, getAtPath, h, listSet_getD, ih]
      | none => simp [setAtPath, getAtPath, h, objGet_objSet, ih]
    | vobj fields => simp [setAtPath, getAtPath, objGet_objSet, ih]
    | undef =>
      cases head with
      | num i => simp [setAtPath, getAtPath, PathPart.arrIndex, listSet_getD, ih]
      | str s => simp [setAtPath, getAtPath, PathPart.objKey, objGet, ih]
    | vnull =>
      cases head with
      | num i => simp [setAtPath, getAtPath, PathPart.arrIndex, listSet_getD, ih]
      | str s => simp [setAtPath, getAtPath, PathPart.objKey, objGet, ih]
    | vbool b =>
      cases head with
      | num i => simp [setAtPath, getAtPath, PathPart.arrIndex, listSet_getD, ih]
      | str s => simp [setAtPath, getAtPath, PathPart.objKey, objGet, ih]
    | vnum n =>
      cases head with
      | num i => simp [setAtPath, getAtPath, PathPart.arrIndex, listSet_getD, ih]
      | str s => simp [setAtPath, getAtPath, PathPart.objKey, objGet, ih]
    | vdec s =>
      cases head with
      | num i => simp [setAtPath, getAtPath, PathPart.arrIndex, listSet_getD, ih]
      | str t => simp [setAtPath, getAtPath, PathPart.objKey, objGet, ih]
    | vstr s =>
      cases head with
      | num i => simp [setAtPath, getAtPath, PathPart.arrIndex, listSet_getD, ih]
      | str t => simp [setAtPath, getAtPath, PathPart.objKey, objGet, ih]

/-! ## escapeString / unescapeString (worker module) -/

/-- One global single-character replacement, as one `String.replace` step of
the source's chain (`str.replace(/x/g, repl)`). -/
def replaceChar (c : Char) (repl : List Char) : List Char → List Char
  | [] => []
  | a :: rest => (if a = c then repl else [a]) ++ replaceChar c repl rest

/-- Embedding of `escapeStringValue` on character lists: five sequential
global replacements, backslash first to avoid double-escaping. -/
def escapeChars (l : List Char) : List Char :=
  replaceChar '\t' ['\\', 't']
    (replaceChar '\r' ['\\', 'r']
      (replaceChar '\n' ['\\', 'n']
        (replaceChar '"' ['\\', '"']
          (replaceChar '\\' ['\\', '\\'] l))))

/-- Embedding of `escapeStringValue`. -/
def escapeStringValue (s : String) : String := ⟨escapeChars s.data⟩

/-- The single-quote character, written by code point to keep source plain. -/
def squote : Char := Char.ofNat 39

/-- Embedding of `unescapeStringValue` on character lists: explicit
left-to-right scan; a backslash followed by one of `n t r " ' \` decodes and
advances two positions; any other backslash is emitted unchanged and the scan
advances one position only. -/
def unescapeChars : List Char → List Char
  | [] => []
  | a :: rest =>
    if a = '\\' then
      match rest with
      | [] => ['\\']
      | c :: rest2 =>
        if c = 'n' then '\n' :: unescapeChars rest2
        else if c = 't' then '\t' :: unescapeChars rest2
        else if c = 'r' then '\r' :: unescapeChars rest2
        else if c = '"' then '"' :: unescapeChars rest2
        else if c = squote then squote :: unescapeChars rest2
        else if c = '\\' then '\\' :: unescapeChars rest2
        else '\\' :: unescapeChars (c :: rest2)
    else a :: unescapeChars rest

/-- Embedding of `unescapeStringValue`. -/
def unescapeStringValue (s : String) : String := ⟨unescapeChars s.data⟩

/-- What the five-step escape chain does to a single character. -/
def escChar (a : Char) : List Char :=
  if a = '\\' then ['\\', '\\']
  else if a = '"' then ['\\', '"']
  else if a = '\n' then ['\\', 'n']
  else if a = '\r' then ['\\', 'r']
  else if a = '\t' then ['\\', 't']
  else [a]

theorem replaceChar_append (c : Char) (repl l1 l2 : List Char) :
    replaceChar c repl (l1 ++ l2) = replaceChar c repl l1 ++ replaceChar c repl l2 := by
  induction l1 with
  | nil => rfl
  | cons a rest ih => simp [replaceChar, ih]

theorem escapeChars_cons (a : Char) (l : List Char) :
    escapeChars (a :: l) = escChar a ++ escapeChars l := by
  by_cases h1 : a = '\\'
  · subst h1; simp [escapeChars, replaceChar, replaceChar_append, escChar]
  by_cases h2 : a = '"'
  · subst h2; simp [escapeChars, replaceChar, replaceChar_append, escChar]
  by_cases h3 : a = '\n'
  · subst h3; simp [escapeChars, replaceChar, replaceChar_append, escChar]
  by_cases h4 : a = '\r'
  · subst h4; simp [escapeChars, replaceChar, replaceChar_append, escChar]
  by_cases h5 : a = '\t'
  · subst h5; simp [escapeChars, replaceChar, replaceChar_append, escChar]
  · simp [escapeChars, replaceChar, replaceChar_append, escChar, h1, h2, h3, h4, h5]

theorem backslash_ne_squote : ¬ ('\\' = squote) := by decide

theorem unescapeChars_cons_ne (a : Char) (l : List Char) (h : ¬ a = '\\') :
    unescapeChars (a :: l) = a :: unescapeChars l := by
  cases l <;> simp [unescapeChars, h]

theorem unescapeChars_escapeChars (l : List Char) :
    unescapeChars (escapeChars l) = l := by
  induction l with
  | nil => rfl
  | cons a rest ih =>
    rw [escapeChars_cons]
    by_cases h1 : a = '\\'
    · subst h1; simp [escChar, unescapeChars, backslash_ne_squote, ih]
    by_cases h2 : a = '"'
    · subst h2; simp [escChar, unescapeChars, backslash_ne_squote, ih]
    by_cases h3 : a = '\n'
    · subst h3; simp [escChar, unescapeChars, ih]
    by_cases h4 : a = '\r'
    · subst h4; simp [escChar, unescapeChars, ih]
    by_cases h5 : a = '\t'
    · subst h5; simp [escChar, unescapeChars, ih]
    · rw [show escChar a = [a] from by simp [escChar, h1, h2, h3, h4, h5]]
      rw [List.singleton_append, unescapeChars_cons_ne a _ h1, ih]

/-! ## A JSON parser embedding `jsonParser.parse` (json-bigint, storeAsString)

The worker parses candidate JSON strings with JSONbig configured with
`storeAsString`: integer literals beyond the double-safe range come back as
plain strings.  We model standard JSON here, with two corners simplified:
non-integer numeric literals (fractions/exponents) are carried opaquely as
`vdec` of their literal text, and an object with duplicate keys keeps both
bindings (earlier one wins on lookup) where JS would keep the last. -/

/-- JSON whitespace. -/
def isJsonWs (c : Char) : Bool := c = ' ' || c = '\t' || c = '\n' || c = '\r'

/-- Skip leading JSON whitespace. -/
def skipWs (cs : List Char) : List Char := cs.dropWhile isJsonWs

/-- Value of a hexadecimal digit. -/
def hexVal (c : Char) : Option Nat :=
  if '0' ≤ c ∧ c ≤ '9' then some (c.toNat - '0'.toNat)
  else if 'a' ≤ c ∧ c ≤ 'f' then some (c.toNat - 'a'.toNat + 10)
  else if 'A' ≤ c ∧ c ≤ 'F' then some (c.toNat - 'A'.toNat + 10)
  else none

/-- Decode a single-character JSON string escape. -/
def escDecode (e : Char) : Option Char :=
  if e = '"' then some '"'
  else if e = '\\' then some '\\'
  else if e = '/' then some '/'
  else if e = 'b' then some (Char.ofNat 8)
  else if e = 'f' then some (Char.ofNat 12)
  else if e = 'n' then some '\n'
  else if e = 'r' then some '\r'
  else if e = 't' then some '\t'
  else none

/-- Parse the body of a JSON string after the opening quote; returns the
decoded content and the input following the closing quote. -/
def parseStringBody : List Char → Option (List Char × List Char)
  | [] => none
  | c :: rest =>
    if c = '"' then some ([], rest)
    else if c = '\\' then
      match rest with
      | 'u' :: h1 :: h2 :: h3 :: h4 :: rest3 =>
        match hexVal h1, hexVal h2, hexVal h3, hexVal h4 with
        | some a, some b, some c2, some d =>
          (parseStringBody rest3).map
            (fun p => (Char.ofNat (((a * 16 + b) * 16 + c2) * 16 + d) :: p.1, p.2))
        | _, _, _, _ => none
      | e :: rest2 =>
        match escDecode e with
        | some d => (parseStringBody rest2).map (fun p => (d :: p.1, p.2))
        | none => none
      | [] => none
    else if c.toNat < 32 then none
    else (parseStringBody rest).map (fun p => (c :: p.1, p.2))

/-- Split a maximal run of decimal digits. -/
def digitsTake (cs : List Char) : List Char × List Char :=
  (cs.takeWhile (fun c => c.isDigit), cs.dropWhile (fun c => c.isDigit))

/-- Natural number denoted by a digit run. -/
def natOfDigits (ds : List Char) : Nat :=
  ds.foldl (fun acc c => acc * 10 + (c.toNat - 48)) 0

/-- Split an optional leading exponent sign. -/
def splitExpSign : List Char → List Char × List Char
  | '+' :: r => (['+'], r)
  | '-' :: r => (['-'], r)
  | cs => ([], cs)

/-- Parse an optional exponent part (`e`/`E`, optional sign, digits); returns
the consumed characters (empty if no exponent present) and the rest. -/
def parseExp (cs : List Char) : Option (List Char × List Char) :=
  match cs with
  | e :: rest =>
    if e = 'e' ∨ e = 'E' then
      match digitsTake (splitExpSign rest).2 with
      | ([], _) => none
      | (ds, rest2) => some (e :: (splitExpSign rest).1 ++ ds, rest2)
    else some ([], cs)
  | [] => some ([], [])

/-- The largest double-safe integer, `Number.MAX_SAFE_INTEGER`. -/
def maxSafeInteger : Nat := 9007199254740991

/-- Parse a JSON number token.  A plain integer literal becomes `vnum` when
double-safe and a plain string otherwise (JSONbig `storeAsString`); literals
with a fraction or exponent are kept opaquely as `vdec` of their text. -/
def splitMinusSign : List Char → List Char × List Char
  | '-' :: rest => (['-'], rest)
  | cs => ([], cs)

def parseNumberTok (cs : List Char) : Option (Value × List Char) :=
  let sgn := (splitMinusSign cs).1
  let ds := (digitsTake (splitMinusSign cs).2).1
  let cs2 := (digitsTake (splitMinusSign cs).2).2
  if ds.isEmpty then none
  else if 1 < ds.length ∧ ds.headD 'x' = '0' then none
  else
    match cs2 with
    | '.' :: cs3 =>
      let fs := (digitsTake cs3).1
      let cs4 := (digitsTake cs3).2
      if fs.isEmpty then none
      else
        match parseExp cs4 with
        | none => none
        | some (es, cs5) => some (.vdec ⟨sgn ++ ds ++ '.' :: fs ++ es⟩, cs5)
    | _ =>
      match parseExp cs2 with
      | none => none
      | some (es, cs5) =>
        if es.isEmpty then
          let n : Int := (if sgn.isEmpty then 1 else -1) * (natOfDigits ds : Int)
          if n.natAbs ≤ maxSafeInteger then some (.vnum n, cs2)
          else some (.vstr ⟨sgn ++ ds⟩, cs2)
        else some (.vdec ⟨sgn ++ ds ++ es⟩, cs5)

mutual

/-- Parse one JSON value (fuelled recursion; the fuel passed by `parseFull`
always suffices). -/
def parseVal : Nat → List Char → Option (Value × List Char)
  | 0, _ => none
  | Nat.succ f, cs =>
    match skipWs cs with
    | [] => none
    | c :: rest =>
      if c = '{' then
        match skipWs rest with
        | '}' :: rest2 => some (.vobj [], rest2)
        | r1 =>
          match parseMembers f r1 with
          | some (fs, rest2) => some (.vobj fs, rest2)
          | none => none
      else if c = '[' then
        match skipWs rest with
        | ']' :: rest2 => some (.varr [] [], rest2)
        | r1 =>
          match parseElems f r1 with
          | some (xs, rest2) => some (.varr xs [], rest2)
          | none => none
      else if c = '"' then
        match parseStringBody rest with
        | some (content, rest2) => some (.vstr ⟨content⟩, rest2)
        | none => none
      else if c = 't' then
        match rest with
        | 'r' :: 'u' :: 'e' :: rest2 => some (.vbool true, rest2)
        | _ => none
      else if c = 'f' then
        match rest with
        | 'a' :: 'l' :: 's' :: 'e' :: rest2 => some (.vbool false, rest2)
        | _ => none
      else if c = 'n' then
        match rest with
        | 'u' :: 'l' :: 'l' :: rest2 => some (.vnull, rest2)
        | _ => none
      else parseNumberTok (c :: rest)

/-- Parse the elements of a non-empty JSON array, up to and including the
closing bracket. -/
def parseElems : Nat → List Char → Option (List Value × List Char)
  | 0, _ => none
  | Nat.succ f, cs =>
    match parseVal f cs with
    | none => none
    | some (v, rest) =>
      match skipWs rest with
      | ',' :: rest2 =>
        match parseElems f rest2 with
        | some (vs, rest3) => some (v :: vs, rest3)
        | none => none
      | ']' :: rest2 => some ([v], rest2)
      | _ => none

/-- Parse the members of a non-empty JSON object, up to and including the
closing brace. -/
def parseMembers : Nat → List Char → Option (List (String × Value) × List Char)
  | 0, _ => none
  | Nat.succ f, cs =>
    match cs with
    | '"' :: rest =>
      match parseStringBody rest with
      | none => none
      | some (key, rest1) =>
        match skipWs rest1 with
        | ':' :: rest2 =>
          match parseVal f rest2 with
          | none => none
          | some (v, rest3) =>
            match skipWs rest3 with
            | ',' :: rest4 =>
              match parseMembers f (skipWs rest4) with
              | some (fs, rest5) => some ((⟨key⟩, v) :: fs, rest5)
              | none => none
            | '}' :: rest4 => some ([(⟨key⟩, v)], rest4)
            | _ => none
        | _ => none
    | _ => none

end

/-- Full-input JSON parse: the whole (pre-trimmed) input must be consumed up
to trailing whitespace, as `JSON.parse` requires. -/
def parseFull (t : List Char) : Option Value :=
  match parseVal (2 * t.length + 2) t with
  | some (v, rest) => if skipWs rest = [] then some v else none
  | none => none

theorem skipWs_length (cs : List Char) : (skipWs cs).length ≤ cs.length := by
  have h := congrArg List.length (@List.takeWhile_append_dropWhile _ isJsonWs cs)
  simp only [List.length_append] at h
  simp only [skipWs]
  omega

theorem digitsTake_length (cs : List Char) :
    (digitsTake cs).1.length + (digitsTake cs).2.length = cs.length := by
  have h := congrArg List.length
    (@List.takeWhile_append_dropWhile _ (fun c => c.isDigit) cs)
  simp only [List.length_append] at h
  simp only [digitsTake]
  omega

theorem splitExpSign_length (cs : List Char) :
    (splitExpSign cs).1.length + (splitExpSign cs).2.length = cs.length := by
  unfold splitExpSign
  split <;> simp_arith

theorem splitMinusSign_length (cs : List Char) :
    (splitMinusSign cs).1.length + (splitMinusSign cs).2.length = cs.length := by
  unfold splitMinusSign
  split <;> simp_arith

theorem parseExp_bound (cs es rest : List Char) (h : parseExp cs = some (es, rest)) :
    es.length + rest.length ≤ cs.length := by
  unfold parseExp at h
  split at h
  case h_1 e rest' =>
    split at h
    · split at h
      · exact absurd h (by simp)
      case h_2 ds rest2 heq =>
        have hd := digitsTake_length (splitExpSign rest').2
        have hs := splitExpSign_length rest'
        rw [heq] at hd
        simp only at hd
        cases h
        simp only [List.length_cons, List.length_append]
        omega
    · cases h
      simp
  case h_2 =>
    cases h
    simp


theorem parseStringBody_bound : ∀ (n : Nat) (cs content rest : List Char), cs.length ≤ n →
    parseStringBody cs = some (content, rest) → content.length + rest.length < cs.length := by
  intro n
  induction n with
  | zero =>
    intro cs content rest hlen h
    cases cs with
    | nil => simp [parseStringBody] at h
    | cons c r => simp at hlen
  | succ n ih =>
    intro cs content rest hlen h
    rw [parseStringBody.eq_def] at h
    split at h
    · simp at h
    next c rest' =>
      split at h
      · cases h
        simp
      · split at h
        · split at h
          next h1 h2 h3 h4 rest3 =>
            split at h
            next a b c2 d ha hb hc hd =>
              rw [Option.map_eq_some'] at h
              obtain ⟨p, hp, hfp⟩ := h
              simp only [Prod.mk.injEq] at hfp
              obtain ⟨hc1, hc2⟩ := hfp
              subst hc1
              subst hc2
              simp only [List.length_cons] at hlen ⊢
              have hb := ih rest3 p.1 p.2 (by omega) hp
              omega
            next => simp at h
          next e rest2 hnotu =>
            split at h
            next d hd =>
              rw [Option.map_eq_some'] at h
              obtain ⟨p, hp, hfp⟩ := h
              simp only [Prod.mk.injEq] at hfp
              obtain ⟨hc1, hc2⟩ := hfp
              subst hc1
              subst hc2
              simp only [List.length_cons] at hlen ⊢
              have hb := ih rest2 p.1 p.2 (by omega) hp
              omega
            next => simp at h
          next => simp at h
        · split at h
          · simp at h
          · rw [Option.map_eq_some'] at h
            obtain ⟨p, hp, hfp⟩ := h
            simp only [Prod.mk.injEq] at hfp
            obtain ⟨hc1, hc2⟩ := hfp
            subst hc1
            subst hc2
            simp only [List.length_cons] at hlen ⊢
            have hb := ih rest' p.1 p.2 (by omega) hp
            omega


theorem parseNumberTok_bound (cs : List Char) (v : Value) (rest : List Char)
    (h : parseNumberTok cs = some (v, rest)) : v.msize + rest.length ≤ cs.length + 1 := by
  have hsm := splitMinusSign_length cs
  have hdt := digitsTake_length (splitMinusSign cs).2
  simp only [parseNumberTok] at h
  split at h
  · simp at h
  split at h
  · simp at h
  split at h
  case _ =>
    rename_i cs3 hshape
    have hdt3 := digitsTake_length cs3
    have hlen2 := congrArg List.length hshape
    simp only [List.length_cons] at hlen2
    split at h
    · simp at h
    rcases hpe : parseExp (digitsTake cs3).2 with _ | ⟨es, cs5⟩ <;> rw [hpe] at h
    · simp at h
    · have hpb := parseExp_bound _ es cs5 hpe
      simp only [Option.some.injEq, Prod.mk.injEq] at h
      obtain ⟨rfl, rfl⟩ := h
      simp only [Value.msize]
      omega
  case _ =>
    rcases hpe : parseExp (digitsTake (splitMinusSign cs).2).2 with _ | ⟨es, cs5⟩ <;>
      rw [hpe] at h
    · simp at h
    · have hpb := parseExp_bound _ es cs5 hpe
      simp only at h
      split at h
      · split at h <;> split at h <;>
          (simp only [Option.some.injEq, Prod.mk.injEq] at h; obtain ⟨rfl, rfl⟩ := h) <;>
          simp only [Value.msize, String.length, List.length_append] <;> omega
      · simp only [Option.some.injEq, Prod.mk.injEq] at h
        obtain ⟨rfl, rfl⟩ := h
        simp only [Value.msize]
        omega

theorem parse_bounds : ∀ f : Nat,
    (∀ cs v rest, parseVal f cs = some (v, rest) →
      v.msize + rest.length ≤ cs.length + 1) ∧
    (∀ cs vs rest, parseElems f cs = some (vs, rest) →
      Value.msizeList vs + rest.length + 1 ≤ cs.length + 1) ∧
    (∀ cs fs rest, parseMembers f cs = some (fs, rest) →
      Value.msizeFields fs + rest.length + 1 ≤ cs.length + 1) := by
  intro f
  induction f with
  | zero =>
    refine ⟨?_, ?_, ?_⟩ <;> intro cs a rest h <;>
      simp [parseVal, parseElems, parseMembers] at h
  | succ f ih =>
    obtain ⟨ihV, ihE, ihM⟩ := ih
    refine ⟨?_, ?_, ?_⟩
    · intro cs v rest h
      have hsk := skipWs_length cs
      simp only [parseVal] at h
      rcases hsw : skipWs cs with _ | ⟨c, rest1⟩ <;> rw [hsw] at h hsk
      · simp at h
      simp only [List.length_cons] at hsk
      simp only at h
      split at h
      · -- object
        split at h
        · rename_i rest2 heq
          have h2 := congrArg List.length heq
          have h3 := skipWs_length rest1
          simp only [List.length_cons] at h2
          simp only [Option.some.injEq, Prod.mk.injEq] at h
          obtain ⟨rfl, rfl⟩ := h
          simp only [Value.msize, Value.msizeFields]
          omega
        · rcases hm : parseMembers f (skipWs rest1) with _ | ⟨fs, rest2⟩ <;> rw [hm] at h
          · simp at h
          · simp only [Option.some.injEq, Prod.mk.injEq] at h
            obtain ⟨rfl, rfl⟩ := h
            have hb := ihM _ _ _ hm
            have h3 := skipWs_length rest1
            simp only [Value.msize]
            omega
      · split at h
        · -- array
          split at h
          · rename_i rest2 heq
            have h2 := congrArg List.length heq
            have h3 := skipWs_length rest1
            simp only [List.length_cons] at h2
            simp only [Option.some.injEq, Prod.mk.injEq] at h
            obtain ⟨rfl, rfl⟩ := h
            simp only [Value.msize, Value.msizeList, Value.msizeFields]
            omega
          · rcases he : parseElems f (skipWs rest1) with _ | ⟨xs, rest2⟩ <;> rw [he] at h
            · simp at h
            · simp only [Option.some.injEq, Prod.mk.injEq] at h
              obtain ⟨rfl, rfl⟩ := h
              have hb := ihE _ _ _ he
              have h3 := skipWs_length rest1
              simp only [Value.msize, Value.msizeFields]
              omega
        · split at h
          · -- string
            rcases hsb : parseStringBody rest1 with _ | ⟨content, rest2⟩ <;> rw [hsb] at h
            · simp at h
            · simp only [Option.some.injEq, Prod.mk.injEq] at h
              obtain ⟨rfl, rfl⟩ := h
              have hb := parseStringBody_bound rest1.length rest1 content rest2 (le_refl _) hsb
              simp only [Value.msize, String.length]
              omega
          · split at h
            · -- true
              split at h
              · rename_i rest2
                simp only [List.length_cons] at hsk
                simp only [Option.some.injEq, Prod.mk.injEq] at h
                obtain ⟨rfl, rfl⟩ := h
                simp only [Value.msize]
                omega
              · simp at h
            · split at h
              · -- false
                split at h
                · rename_i rest2
                  simp only [List.length_cons] at hsk
                  simp only [Option.some.injEq, Prod.mk.injEq] at h
                  obtain ⟨rfl, rfl⟩ := h
                  simp only [Value.msize]
                  omega
                · simp at h
              · split at h
                · -- null
                  split at h
                  · rename_i rest2
                    simp only [List.length_cons] at hsk
                    simp only [Option.some.injEq, Prod.mk.injEq] at h
                    obtain ⟨rfl, rfl⟩ := h
                    simp only [Value.msize]
                    omega
                  · simp at h
                · -- number
                  have hb := parseNumberTok_bound (c :: rest1) v rest h
                  simp only [List.length_cons] at hb
                  omega
    · intro cs vs rest h
      simp only [parseElems] at h
      rcases hv : parseVal f cs with _ | ⟨v1, rest1⟩ <;> rw [hv] at h
      · simp at h
      have hb1 := ihV _ _ _ hv
      have hs1 := skipWs_length rest1
      simp only at h
      split at h
      · rename_i rest2 heq
        have h2 := congrArg List.length heq
        simp only [List.length_cons] at h2
        rcases he : parseElems f rest2 with _ | ⟨vs1, rest3⟩ <;> rw [he] at h
        · simp at h
        · simp only [Option.some.injEq, Prod.mk.injEq] at h
          obtain ⟨rfl, rfl⟩ := h
          have hb2 := ihE _ _ _ he
          simp only [Value.msizeList]
          omega
      · rename_i rest2 heq
        have h2 := congrArg List.length heq
        simp only [List.length_cons] at h2
        simp only [Option.some.injEq, Prod.mk.injEq] at h
        obtain ⟨rfl, rfl⟩ := h
        simp only [Value.msizeList]
        omega
      · simp at h
    · intro cs fs rest h
      simp only [parseMembers] at h
      split at h
      · rename_i rest0
        rcases hsb : parseStringBody rest0 with _ | ⟨key, rest1⟩ <;> rw [hsb] at h
        · simp at h
        have hkb := parseStringBody_bound rest0.length rest0 key rest1 (le_refl _) hsb
        have hs1 := skipWs_length rest1
        simp only at h
        split at h
        · rename_i rest2 heq
          have h2 := congrArg List.length heq
          simp only [List.length_cons] at h2
          rcases hv : parseVal f rest2 with _ | ⟨v1, rest3⟩ <;> rw [hv] at h
          · simp at h
          have hb1 := ihV _ _ _ hv
          have hs3 := skipWs_length rest3
          simp only at h
          split at h
          · rename_i rest4 heq2
            have h4 := congrArg List.length heq2
            simp only [List.length_cons] at h4
            have hs4 := skipWs_length rest4
            rcases hm : parseMembers f (skipWs rest4) with _ | ⟨fs1, rest5⟩ <;> rw [hm] at h
            · simp at h
            · simp only [Option.some.injEq, Prod.mk.injEq] at h
              obtain ⟨rfl, rfl⟩ := h
              have hb2 := ihM _ _ _ hm
              simp only [Value.msizeFields, List.length_cons]
              omega
          · rename_i rest4 heq2
            have h4 := congrArg List.length heq2
            simp only [List.length_cons] at h4
            simp only [Option.some.injEq, Prod.mk.injEq] at h
            obtain ⟨rfl, rfl⟩ := h
            simp only [Value.msizeFields, List.length_cons]
            omega
          · simp at h
        · simp at h
      · simp at h

/-- JS `String.prototype.trim` whitespace (the common cases). -/
def jsWsChar (c : Char) : Bool :=
  c = ' ' || c = '\t' || c = '\n' || c = '\r' || c = Char.ofNat 11 || c = Char.ofNat 12 ||
  c = Char.ofNat 0xA0 || c = Char.ofNat 0xFEFF

/-- JS `trim` on character lists. -/
def trimChars (l : List Char) : List Char :=
  ((l.dropWhile jsWsChar).reverse.dropWhile jsWsChar).reverse

/-- JS `s.trim()`. -/
def jsTrim (s : String) : String := ⟨trimChars s.data⟩

/-- The worker's quick check before attempting a parse: the trimmed string
starts with `{` and ends with the closing brace, or starts with `[` and ends
with the closing bracket. -/
def looksLikeJson (l : List Char) : Bool :=
  (l.headD ' ' = '{' && l.getLastD ' ' = Char.ofNat 125) ||
  (l.headD ' ' = '[' && l.getLastD ' ' = ']')

theorem trimChars_length (l : List Char) : (trimChars l).length ≤ l.length := by
  have h1 := congrArg List.length (@List.takeWhile_append_dropWhile _ jsWsChar l)
  have h2 := congrArg List.length
    (@List.takeWhile_append_dropWhile _ jsWsChar (l.dropWhile jsWsChar).reverse)
  simp only [List.length_append, List.length_reverse] at h1 h2
  simp only [trimChars, List.length_reverse]
  omega

theorem parseFull_msize (t : List Char) (v : Value)
    (hl : looksLikeJson t = true) (h : parseFull t = some v) : v.msize ≤ t.length := by
  cases t with
  | nil => simp [looksLikeJson] at hl
  | cons c t' =>
    have hc : c = '{' ∨ c = '[' := by
      simp only [looksLikeJson, List.headD_cons, Bool.or_eq_true, Bool.and_eq_true,
        decide_eq_true_eq] at hl
      rcases hl with ⟨h1, _⟩ | ⟨h1, _⟩
      · exact Or.inl h1
      · exact Or.inr h1
    have hskip : skipWs (c :: t') = c :: t' := by
      rcases hc with rfl | rfl <;> simp [skipWs, List.dropWhile_cons, isJsonWs]
    simp only [parseFull] at h
    rcases hv : parseVal (2 * (c :: t').length + 2) (c :: t') with _ | ⟨w, rest⟩ <;>
      rw [hv] at h
    · simp at h
    · simp only at h
      split at h
      · simp only [Option.some.injEq] at h
        subst h
        rw [show 2 * (c :: t').length + 2 = Nat.succ (2 * (c :: t').length + 1) from rfl] at hv
        simp only [parseVal] at hv
        rw [hskip] at hv
        simp only at hv
        rcases hc with rfl | rfl
        · rw [if_pos rfl] at hv
          split at hv
          · rename_i rest2 heq
            simp only [Option.some.injEq, Prod.mk.injEq] at hv
            obtain ⟨rfl, rfl⟩ := hv
            simp only [Value.msize, Value.msizeFields, List.length_cons]
            omega
          · rcases hm : parseMembers (2 * ('{' :: t').length + 1) (skipWs t') with
              _ | ⟨fs, rest2⟩ <;> rw [hm] at hv
            · simp at hv
            · simp only [Option.some.injEq, Prod.mk.injEq] at hv
              obtain ⟨rfl, rfl⟩ := hv
              have hb := (parse_bounds (2 * ('{' :: t').length + 1)).2.2 _ _ _ hm
              have hs := skipWs_length t'
              simp only [Value.msize, List.length_cons]
              omega
        · rw [if_neg (by decide : ¬('[' : Char) = '{'), if_pos rfl] at hv
          split at hv
          · rename_i rest2 heq
            simp only [Option.some.injEq, Prod.mk.injEq] at hv
            obtain ⟨rfl, rfl⟩ := hv
            simp only [Value.msize, Value.msizeList, Value.msizeFields, List.length_cons]
            omega
          · rcases hm : parseElems (2 * ('[' :: t').length + 1) (skipWs t') with
              _ | ⟨xs, rest2⟩ <;> rw [hm] at hv
            · simp at hv
            · simp only [Option.some.injEq, Prod.mk.injEq] at hv
              obtain ⟨rfl, rfl⟩ := hv
              have hb := (parse_bounds (2 * ('[' :: t').length + 1)).2.1 _ _ _ hm
              have hs := skipWs_length t'
              simp only [Value.msize, Value.msizeList, Value.msizeFields, List.length_cons]
              omega
      · simp at h

/-- JS `parsed !== null && typeof parsed === "object"`. -/
def Value.isContainer : Value → Bool
  | .varr _ _ => true
  | .vobj _ => true
  | _ => false

/-- A mapping record (a plain object, not an array). -/
def Value.isMapping : Value → Bool
  | .vobj _ => true
  | _ => false

mutual

/-- Embedding of the worker's `smartParseValue`: a string whose trimmed form
looks like a JSON object or array is parsed; a successful parse yielding a
container is recursed into (to unwrap doubly-stringified JSON), any other
outcome leaves the original string; arrays and objects are walked
value-wise; other scalars pass through.  (The `warnings` parameter of the
source is never written to and is omitted.) -/
def smartParseValue : Value → Value
  | .vstr s =>
    if hc : looksLikeJson (jsTrim s).data then
      match hp : parseFull (jsTrim s).data with
      | some p => if p.isContainer then smartParseValue p else .vstr s
      | none => .vstr s
    else .vstr s
  | .varr xs _ => .varr (smartParseList xs) []
  | .vobj fields => .vobj (smartParseFields fields)
  | v => v
termination_by v => 2 * v.msize
decreasing_by
· have h1 := parseFull_msize _ _ hc hp
  have h2 := trimChars_length s.data
  have h3 : (jsTrim s).data = trimChars s.data := rfl
  rw [h3] at h1
  have h4 : s.length = s.data.length := rfl
  simp only [Value.msize]
  omega
· simp only [Value.msize]
  omega
· simp only [Value.msize]
  omega

/-- Element-wise `smartParseValue` over an array (`value.map(...)`). -/
def smartParseList : List Value → List Value
  | [] => []
  | x :: xs => smartParseValue x :: smartParseList xs
termination_by xs => 2 * Value.msizeList xs + 1
decreasing_by
· have := Value.msize_pos x
  simp only [Value.msizeList]
  omega
· have := Value.msize_pos x
  simp only [Value.msizeList]
  omega

/-- Value-wise `smartParseValue` over an object's fields
(`Object.entries` rebuild). -/
def smartParseFields : List (String × Value) → List (String × Value)
  | [] => []
  | (k, x) :: fs => (k, smartParseValue x) :: smartParseFields fs
termination_by fs => 2 * Value.msizeFields fs + 1
decreasing_by
· have := Value.msize_pos x
  simp only [Value.msizeFields]
  omega
· have := Value.msize_pos x
  simp only [Value.msizeFields]
  omega

end

theorem smart_vstr_noLook (s : String)
    (hc : ¬ looksLikeJson (jsTrim s).data = true) :
    smartParseValue (.vstr s) = .vstr s := by
  rw [smartParseValue, dif_neg hc]

theorem smart_vstr_parse_none (s : String)
    (hp : parseFull (jsTrim s).data = none) :
    smartParseValue (.vstr s) = .vstr s := by
  rw [smartParseValue]
  split
  · split
    · rename_i p heq
      rw [hp] at heq
      cases heq
    · rfl
  · rfl

theorem smart_vstr_noncontainer (s : String) (p : Value)
    (hp : parseFull (jsTrim s).data = some p) (hcont : ¬ p.isContainer = true) :
    smartParseValue (.vstr s) = .vstr s := by
  rw [smartParseValue]
  split
  · split
    · rename_i p' heq
      rw [hp] at heq
      injection heq with heq2
      subst heq2
      rw [if_neg hcont]
    · rfl
  · rfl

theorem smart_vstr_container (s : String) (p : Value)
    (hc : looksLikeJson (jsTrim s).data = true)
    (hp : parseFull (jsTrim s).data = some p) (hcont : p.isContainer = true) :
    smartParseValue (.vstr s) = smartParseValue p := by
  rw [smartParseValue, dif_pos hc]
  split
  · rename_i p' heq
    rw [hp] at heq
    injection heq with heq2
    subst heq2
    rw [if_pos hcont]
  · rename_i heq
    rw [hp] at heq
    cases heq

theorem smartParse_idem_aux : ∀ n : Nat,
    (∀ v : Value, v.msize ≤ n →
      smartParseValue (smartParseValue v) = smartParseValue v) ∧
    (∀ xs : List Value, Value.msizeList xs ≤ n →
      smartParseList (smartParseList xs) = smartParseList xs) ∧
    (∀ fs : List (String × Value), Value.msizeFields fs ≤ n →
      smartParseFields (smartParseFields fs) = smartParseFields fs) := by
  intro n
  induction n with
  | zero =>
    refine ⟨?_, ?_, ?_⟩
    · intro v hv
      exfalso
      have := Value.msize_pos v
      omega
    · intro xs hxs
      cases xs with
      | nil => simp only [smartParseList]
      | cons x xs =>
        exfalso
        have := Value.msize_pos x
        simp only [Value.msizeList] at hxs
        omega
    · intro fs hfs
      cases fs with
      | nil => simp only [smartParseFields]
      | cons p fs =>
        obtain ⟨k, x⟩ := p
        exfalso
        have := Value.msize_pos x
        simp only [Value.msizeFields] at hfs
        omega
  | succ n ih =>
    obtain ⟨ihv, ihl, ihf⟩ := ih
    have Hv : ∀ v : Value, v.msize ≤ n + 1 →
        smartParseValue (smartParseValue v) = smartParseValue v := by
      intro v hv
      cases v with
      | undef => simp only [smartParseValue]
      | vnull => simp only [smartParseValue]
      | vbool b => simp only [smartParseValue]
      | vnum m => simp only [smartParseValue]
      | vdec s => simp only [smartParseValue]
      | vstr s =>
        by_cases hc : looksLikeJson (jsTrim s).data = true
        · rcases hp : parseFull (jsTrim s).data with _ | p
          · have he := smart_vstr_parse_none s hp
            rw [he, he]
          · by_cases hcont : p.isContainer = true
            · have he := smart_vstr_container s p hc hp hcont
              rw [he]
              apply ihv
              have h1 := parseFull_msize _ _ hc hp
              have h2 := trimChars_length s.data
              have h3 : (jsTrim s).data = trimChars s.data := rfl
              rw [h3] at h1
              have h4 : s.length = s.data.length := rfl
              simp only [Value.msize] at hv
              omega
            · have he := smart_vstr_noncontainer s p hp hcont
              rw [he, he]
        · have he := smart_vstr_noLook s hc
          rw [he, he]
      | varr xs props =>
        have e1 : smartParseValue (.varr xs props) = .varr (smartParseList xs) [] := by
          rw [smartParseValue]
        have e2 : smartParseValue (.varr (smartParseList xs) []) =
            .varr (smartParseList (smartParseList xs)) [] := by
          rw [smartParseValue]
        rw [e1, e2]
        simp only [Value.msize] at hv
        rw [ihl xs (by omega)]
      | vobj fields =>
        have e1 : smartParseValue (.vobj fields) = .vobj (smartParseFields fields) := by
          rw [smartParseValue]
        have e2 : smartParseValue (.vobj (smartParseFields fields)) =
            .vobj (smartParseFields (smartParseFields fields)) := by
          rw [smartParseValue]
        rw [e1, e2]
        simp only [Value.msize] at hv
        rw [ihf fields (by omega)]
    refine ⟨Hv, ?_, ?_⟩
    · intro xs hxs
      cases xs with
      | nil => simp only [smartParseList]
      | cons x xs =>
        simp only [Value.msizeList] at hxs
        have hx := Value.msize_pos x
        have e1 : smartParseList (x :: xs) = smartParseValue x :: smartParseList xs := by
          rw [smartParseList]
        have e2 : smartParseList (smartParseValue x :: smartParseList xs) =
            smartParseValue (smartParseValue x) :: smartParseList (smartParseList xs) := by
          rw [smartParseList]
        rw [e1, e2, Hv x (by omega), ihl xs (by omega)]
    · intro fs hfs
      cases fs with
      | nil => simp only [smartParseFields]
      | cons q fs =>
        obtain ⟨k, x⟩ := q
        simp only [Value.msizeFields] at hfs
        have hx := Value.msize_pos x
        have e1 : smartParseFields ((k, x) :: fs) =
            (k, smartParseValue x) :: smartParseFields fs := by
          rw [smartParseFields]
        have e2 : smartParseFields ((k, smartParseValue x) :: smartParseFields fs) =
            (k, smartParseValue (smartParseValue x)) :: smartParseFields (smartParseFields fs) := by
          rw [smartParseFields]
        rw [e1, e2, Hv x (by omega), ihf fs (by omega)]

/-! ## JavaScript coercions -/

mutual

/-- JS `String(v)` generic string conversion. -/
def jsToString : Value → String
  | .undef => "undefined"
  | .vnull => "null"
  | .vbool b => if b then "true" else "false"
  | .vnum n => toString n
  | .vdec s => s
  | .vstr s => s
  | .varr xs _ => jsArrJoin xs
  | .vobj _ => "[object Object]"

/-- JS `Array.prototype.toString`, i.e. `join(",")`: `null` and `undefined`
elements print as the empty string. -/
def jsArrJoin : List Value → String
  | [] => ""
  | [x] =>
    (match x with
     | .undef => ""
     | .vnull => ""
     | y => jsToString y)
  | x :: xs =>
    (match x with
     | .undef => ""
     | .vnull => ""
     | y => jsToString y) ++ "," ++ jsArrJoin xs

end

/-- Decimal-looking shape `digits '.' digits`. -/
def decimalShape (cs : List Char) : Bool :=
  let ds := cs.takeWhile (fun c => c.isDigit)
  let rest := cs.dropWhile (fun c => c.isDigit)
  match rest with
  | '.' :: fs => ¬ds.isEmpty && ¬fs.isEmpty && fs.all (fun c => c.isDigit)
  | _ => false

/-- JS `Number(s)` for strings, restricted to the literal forms the data
actually carries: the empty (or all-whitespace) string is `0`, an optionally
signed digit run is an integer, an optionally signed `digits.digits` form is
carried as an opaque decimal, and anything else (hex, exponents, words) is
`NaN` (`none`). -/
def strToNumber (s : String) : Option Value :=
  let t := trimChars s.data
  if t.isEmpty then some (.vnum 0)
  else
    let body := match t with
      | '-' :: r => r
      | '+' :: r => r
      | r => r
    let neg : Bool := match t with
      | '-' :: _ => true
      | _ => false
    if ¬body.isEmpty ∧ body.all (fun c => c.isDigit) then
      some (.vnum ((if neg then -1 else 1) * (natOfDigits body : Int)))
    else if decimalShape body then
      some (.vdec ⟨(if neg then ['-'] else []) ++ body⟩)
    else none

/-- JS `Number(v)`; `none` models `NaN`.  Arrays coerce through their string
form (ToPrimitive), objects through `"[object Object]"`. -/
def jsToNumber : Value → Option Value
  | .undef => none
  | .vnull => some (.vnum 0)
  | .vbool b => some (.vnum (if b then 1 else 0))
  | .vnum n => some (.vnum n)
  | .vdec s => strToNumber s
  | .vstr s => strToNumber s
  | .varr xs props => strToNumber (jsToString (.varr xs props))
  | .vobj _ => none

/-- JS `Boolean(v)` truthiness. -/
def jsTruthy : Value → Bool
  | .undef => false
  | .vnull => false
  | .vbool b => b
  | .vnum n => decide (n ≠ 0)
  | .vdec s => ¬s.data.all (fun c => c = '0' || c = '.' || c = '-')
  | .vstr s => ¬s.isEmpty
  | .varr _ _ => true
  | .vobj _ => true

/-- JS bracket property access `v[key]` on object-like values. -/
def jsGet : Value → String → Value
  | .varr xs props, key =>
    (match key.toNat? with
     | some i => xs.getD i .undef
     | none => objGet props key)
  | .vobj fields, key => objGet fields key
  | _, _ => (.undef)

/-- `path.split(".")` (JS) on the underlying characters. -/
def splitDotsGo (cur : List Char) : List Char → List String
  | [] => [⟨cur.reverse⟩]
  | c :: rest => if c = '.' then ⟨cur.reverse⟩ :: splitDotsGo [] rest else splitDotsGo (c :: cur) rest

/-- JS `s.split(".")`. -/
def splitDots (s : String) : List String := splitDotsGo [] s.data

/-- ASCII lower-casing, modelling JS `toLowerCase` on the data at hand. -/
def lowerStr (s : String) : String := ⟨s.data.map Char.toLower⟩

/-- JS `s.startsWith(t)`. -/
def startsWithStr (s t : String) : Bool := t.data.isPrefixOf s.data

/-- JS `s.endsWith(t)`. -/
def endsWithStr (s t : String) : Bool := t.data.isSuffixOf s.data

/-! ## getValueByPath (worker module) -/

/-- The segment walk of `getValueByPath`: `null`/`undefined` or a
non-container current value yields `undefined`. -/
def pathWalk : Value → List String → Value
  | cur, [] => cur
  | .undef, _ :: _ => .undef
  | .vnull, _ :: _ => .undef
  | .varr xs props, seg :: rest => pathWalk (jsGet (.varr xs props) seg) rest
  | .vobj fields, seg :: rest => pathWalk (objGet fields seg) rest
  | _, _ :: _ => (.undef)

/-- Embedding of the worker's `getValueByPath`: empty path, or a `null` /
`undefined` target, yields `undefined`; otherwise the dot-split path (with
empty segments dropped) is walked. -/
def getValueByPath (target : Value) (path : String) : Value :=
  if path.isEmpty then .undef
  else
    match target with
    | .vnull => .undef
    | .undef => .undef
    | t => pathWalk t ((splitDots path).filter (fun s => ¬s.isEmpty))

/-! ## flattenObject (worker module) -/

/-- Embedding of `isEAVObject`: a non-array object bearing a `label` key
whose value is a non-empty string, and a `value` key. -/
def isEAVObject : Value → Bool
  | .vobj fields =>
    objHas fields "label" && objHas fields "value" &&
      (match objGet fields "label" with
       | .vstr l => decide (0 < l.length)
       | _ => false)
  | _ => false

/-- The `label` of an EAV object (empty string on any other value). -/
def eavLabel : Value → String
  | .vobj fields =>
    (match objGet fields "label" with
     | .vstr l => l
     | _ => "")
  | _ => ""

/-- The `value` of an EAV object. -/
def eavValue : Value → Value
  | .vobj fields => objGet fields "value"
  | _ => (.undef)

/-- Index-keyed entries of an array, as `Object.keys` sees them. -/
def arrEntries : List Value → Nat → List (String × Value)
  | [], _ => []
  | x :: xs, i => (toString i, x) :: arrEntries xs (i + 1)

/-- The key/value entries `Object.keys` iterates for a container: index
entries then non-index properties for an array, the field list for an
object. -/
def jsEntries : Value → List (String × Value)
  | .varr xs props => arrEntries xs 0 ++ props
  | .vobj fields => fields
  | _ => []

/-- The depth cutoff `currentDepth >= maxDepth` (`none` is `Infinity`). -/
def depthReached : Option Nat → Nat → Bool
  | none, _ => false
  | some m, d => decide (m ≤ d)

theorem objGet_msize_le (fields : List (String × Value)) (key : String)
    (h : objHas fields key = true) :
    (objGet fields key).msize ≤ Value.msizeFields fields := by
  induction fields with
  | nil => simp [objHas] at h
  | cons p rest ih =>
    obtain ⟨k, v⟩ := p
    simp only [objHas, Bool.or_eq_true, decide_eq_true_eq] at h
    by_cases hk : k = key
    · simp only [objGet, if_pos hk, Value.msizeFields]
      omega
    · rcases h with h | h
      · exact absurd h hk
      · have := ih h
        simp only [objGet, if_neg hk, Value.msizeFields]
        omega

theorem eavValue_msize (v : Value) (h : isEAVObject v = true) :
    (eavValue v).msize < v.msize := by
  cases v with
  | vobj fields =>
    simp only [isEAVObject, Bool.and_eq_true] at h
    have hb := objGet_msize_le fields "value" h.1.2
    simp only [eavValue, Value.msize]
    omega
  | undef => simp [isEAVObject] at h
  | vnull => simp [isEAVObject] at h
  | vbool b => simp [isEAVObject] at h
  | vnum n => simp [isEAVObject] at h
  | vdec s => simp [isEAVObject] at h
  | vstr s => simp [isEAVObject] at h
  | varr xs props => simp [isEAVObject] at h

theorem msizeFields_append (a b : List (String × Value)) :
    Value.msizeFields (a ++ b) = Value.msizeFields a + Value.msizeFields b := by
  induction a with
  | nil => simp [Value.msizeFields]
  | cons p rest ih =>
    obtain ⟨k, v⟩ := p
    rw [List.cons_append]
    simp only [Value.msizeFields]
    rw [ih]
    omega

theorem arrEntries_msize (xs : List Value) (i : Nat) :
    Value.msizeFields (arrEntries xs i) = Value.msizeList xs := by
  induction xs generalizing i with
  | nil => rfl
  | cons x rest ih => simp only [arrEntries, Value.msizeFields, Value.msizeList, ih]

theorem jsEntries_msize (v : Value) :
    Value.msizeFields (jsEntries v) < v.msize := by
  cases v with
  | varr xs props =>
    simp only [jsEntries, msizeFields_append, arrEntries_msize, Value.msize]
    omega
  | vobj fields =>
    simp only [jsEntries, Value.msize]
    omega
  | undef => simp only [jsEntries, Value.msizeFields, Value.msize]; omega
  | vnull => simp only [jsEntries, Value.msizeFields, Value.msize]; omega
  | vbool b => simp only [jsEntries, Value.msizeFields, Value.msize]; omega
  | vnum n => simp only [jsEntries, Value.msizeFields, Value.msize]; omega
  | vdec s => simp only [jsEntries, Value.msizeFields, Value.msize]; omega
  | vstr s => simp only [jsEntries, Value.msizeFields, Value.msize]; omega

mutual

/-- Embedding of the worker's `flattenObject`: recursively flattens an object
or array into dot-joined compound keys accumulated in `result`; `maxDepth`
`none` is the unlimited default; with `useSmartEAV` a `{label, value}` object
flattens under its sanitized label instead of its own keys. -/
def flattenObject (obj : Value) (pfx : String) (result : List (String × Value))
    (maxDepth : Option Nat) (currentDepth : Nat) (useSmartEAV : Bool) :
    List (String × Value) :=
  if ¬obj.isContainer = true then
    (if ¬pfx.isEmpty then objSet result pfx obj else result)
  else if depthReached maxDepth currentDepth then
    objSet result pfx obj
  else if hEAV : (useSmartEAV && isEAVObject obj) = true then
    let cleanLabel : String :=
      ⟨(trimChars (eavLabel obj).data).map (fun c => if c = '.' then '_' else c)⟩
    let eavKey := if ¬pfx.isEmpty then pfx ++ "." ++ cleanLabel else cleanLabel
    if ¬(eavValue obj).isContainer = true then
      objSet result eavKey (eavValue obj)
    else
      flattenObject (eavValue obj) eavKey result maxDepth (currentDepth + 1) useSmartEAV
  else if (jsEntries obj).isEmpty then
    (if ¬pfx.isEmpty then objSet result pfx obj else result)
  else
    flattenFold (jsEntries obj) pfx result maxDepth currentDepth useSmartEAV
termination_by 2 * obj.msize
decreasing_by
· have h1 := eavValue_msize obj (by
    simp only [Bool.and_eq_true] at hEAV
    exact hEAV.2)
  omega
· have h1 := jsEntries_msize obj
  omega

/-- The `keys.forEach` loop of `flattenObject`: containers recurse one level
deeper, primitives are assigned at their compound key. -/
def flattenFold (entries : List (String × Value)) (pfx : String)
    (result : List (String × Value)) (maxDepth : Option Nat) (currentDepth : Nat)
    (useSmartEAV : Bool) : List (String × Value) :=
  match entries with
  | [] => result
  | (key, value) :: rest =>
    let nextKey := if ¬pfx.isEmpty then pfx ++ "." ++ key else key
    let result2 :=
      if value.isContainer then
        flattenObject value nextKey result maxDepth (currentDepth + 1) useSmartEAV
      else objSet result nextKey value
    flattenFold rest pfx result2 maxDepth currentDepth useSmartEAV
termination_by 2 * Value.msizeFields entries + 1
decreasing_by
· simp only [Value.msizeFields]
  omega
· simp only [Value.msizeFields]
  have := Value.msize_pos x
  omega

end

/-! ## applyBatch (worker module) -/

/-- The worker's `BatchAction` union.  Modes and conversion targets are kept
as strings, as in the source, so that unrecognized values flow through the
same default branches. -/
inductive BatchAction where
  | addField (key : String) (mode : String) (value : Option String) (fromKey : Option String)
  | deleteField (keys : List String)
  | renameField (fromKey : String) (toKey : String)
  | updateValue (key : String) (mode : String) (value : Option String)
      (pfx : Option String) (sfx : Option String)
  | typeConvert (key : String) (target : String)
  | extractByCondition (sourceField : String) (matchKey : String) (matchValue : String)
      (extractKey : String) (targetField : String)
  | nestFields (sourceFields : List String) (targetField : String)
  | flattenStrip (stripPfx : Option String) (depth : Option Nat) (targetKey : Option String)
      (targetKeys : Option (List String)) (keepPfx : Option Bool) (useSmartEAV : Option Bool)
  | keyReorder (order : List String)
  | escapeString (key : Option String) (targetKeys : Option (List String))
  | unescapeString (key : Option String) (targetKeys : Option (List String))
  | parseJSON (key : Option String) (targetKeys : Option (List String))

/-- `Object.assign(base, updates)`. -/
def objAssign (base updates : List (String × Value)) : List (String × Value) :=
  updates.foldl (fun acc kv => objSet acc kv.1 kv.2) base

/-- The `targetKeys ?? (key ? [key] : [])` normalization shared by several
actions. -/
def normTargetKeys (key : Option String) (targetKeys : Option (List String)) :
    List String :=
  match targetKeys with
  | some tks => tks
  | none =>
    match key with
    | some k => if ¬k.isEmpty then [k] else []
    | none => []

/-- Hexadecimal digit character. -/
def hexDigit (n : Nat) : Char :=
  if n < 10 then Char.ofNat (48 + n) else Char.ofNat (87 + n)

/-- JSON string-escape for one character. -/
def escJsonChar (c : Char) : List Char :=
  if c = '"' then ['\\', '"']
  else if c = '\\' then ['\\', '\\']
  else if c = '\n' then ['\\', 'n']
  else if c = '\r' then ['\\', 'r']
  else if c = '\t' then ['\\', 't']
  else if c = Char.ofNat 8 then ['\\', 'b']
  else if c = Char.ofNat 12 then ['\\', 'f']
  else if c.toNat < 32 then
    '\\' :: 'u' :: '0' :: '0' :: hexDigit (c.toNat / 16) :: [hexDigit (c.toNat % 16)]
  else [c]

/-- A JSON string literal for `s`. -/
def quoteJson (s : String) : String :=
  "\"" ++ ⟨s.data.flatMap escJsonChar⟩ ++ "\""

mutual

/-- Compact `JSON.stringify`; `undefined` at the top yields `none`, inside an
object the field is skipped, inside an array it prints as `null`. -/
def stringifyVal : Value → Option String
  | .undef => none
  | .vnull => some "null"
  | .vbool b => some (if b then "true" else "false")
  | .vnum n => some (toString n)
  | .vdec s => some s
  | .vstr s => some (quoteJson s)
  | .varr xs _ => some ("[" ++ String.intercalate "," (stringifyArr xs) ++ "]")
  | .vobj fields => some ("\x7b" ++ String.intercalate "," (stringifyObj fields) ++ "\x7d")

/-- Array element serializations. -/
def stringifyArr : List Value → List String
  | [] => []
  | x :: xs => (stringifyVal x).getD "null" :: stringifyArr xs

/-- Object member serializations, skipping `undefined`-valued fields. -/
def stringifyObj : List (String × Value) → List String
  | [] => []
  | (k, x) :: fs =>
    match stringifyVal x with
    | none => stringifyObj fs
    | some sx => (quoteJson k ++ ":" ++ sx) :: stringifyObj fs

end

/-- One record's worth of `applyBatch`: what the `data.map` callback does to
a mapping record (represented by its field list), returning the new record
and the warnings the callback pushed for it. -/
def applyRecordObj (action : BatchAction) (fields : List (String × Value)) :
    Value × List String :=
  match action with
  | .addField key mode value fromKey =>
    let v :=
      if mode = "copy" && (match fromKey with | some fk => ¬fk.isEmpty | none => false) then
        objGet fields (fromKey.getD "")
      else .vstr (value.getD "")
    (.vobj (objSet fields key v), [])
  | .deleteField keys =>
    (.vobj (keys.foldl objRemove fields), [])
  | .renameField fromKey toKey =>
    if ¬objHas fields fromKey then (.vobj fields, [])
    else (.vobj (objRemove (objSet fields toKey (objGet fields fromKey)) fromKey), [])
  | .updateValue key mode value pfx sfx =>
    if ¬objHas fields key then (.vobj fields, [])
    else
      let current := objGet fields key
      if mode = "set" then (.vobj (objSet fields key (.vstr (value.getD ""))), [])
      else
        match current with
        | .vstr s => (.vobj (objSet fields key (.vstr ((pfx.getD "") ++ s ++ (sfx.getD "")))), [])
        | _ => (.vobj fields, [])
  | .typeConvert key target =>
    if ¬objHas fields key then (.vobj fields, [])
    else
      let current := objGet fields key
      if target = "string" then (.vobj (objSet fields key (.vstr (jsToString current))), [])
      else if target = "number" then
        match jsToNumber current with
        | none => (.vobj fields, ["无法转换为数字: " ++ jsToString current])
        | some nv => (.vobj (objSet fields key nv), [])
      else if target = "boolean" then
        (.vobj (objSet fields key (.vbool (jsTruthy current))), [])
      else (.vobj fields, [])
  | .extractByCondition sourceField matchKey matchValue extractKey targetField =>
    match getValueByPath (.vobj fields) sourceField with
    | .varr xs _ =>
      let matched := xs.find? (fun item =>
        item.isContainer &&
          (match getValueByPath item matchKey with
           | .vstr s => s = matchValue
           | _ => false))
      (match matched with
       | none => (.vobj fields, [])
       | some m =>
         match getValueByPath m extractKey with
         | .undef => (.vobj fields, [])
         | extracted => (.vobj (objSet fields targetField extracted), []))
    | _ => (.vobj fields, [])
  | .nestFields sourceFields targetField =>
    if targetField.isEmpty ∨ sourceFields.isEmpty then (.vobj fields, [])
    else
      let targetObject :=
        match objGet fields targetField with
        | .vobj fs2 => fs2
        | _ => []
      let res := sourceFields.foldl
        (fun (acc : List (String × Value) × List (String × Value)) f =>
          (objRemove acc.1 f, objSet acc.2 f (objGet acc.1 f)))
        (fields, targetObject)
      (.vobj (objSet res.1 targetField (.vobj res.2)), [])
  | .flattenStrip stripPfx depth targetKey targetKeys keepPfx useSmartEAV =>
    let keep := keepPfx.getD true
    let eav := useSmartEAV.getD false
    let tks := normTargetKeys targetKey targetKeys
    let result :=
      if ¬tks.isEmpty then
        tks.foldl (fun acc tk =>
          if objHas acc tk then
            let tv := objGet acc tk
            if tv.isContainer then
              let p := if keep then tk else ""
              objAssign (objRemove acc tk) (flattenObject tv p [] depth 0 eav)
            else acc
          else acc) fields
      else flattenObject (.vobj fields) "" [] depth 0 eav
    match stripPfx with
    | some sp =>
      if ¬sp.isEmpty then
        (.vobj (result.foldl (fun acc kv =>
          objSet acc (if kv.1.startsWith sp then kv.1.drop sp.length else kv.1) kv.2) []), [])
      else (.vobj result, [])
    | none => (.vobj result, [])
  | .keyReorder order =>
    let next1 := order.foldl (fun acc key =>
      if objHas fields key then objSet acc key (objGet fields key) else acc) []
    let next2 := fields.foldl (fun acc kv =>
      if ¬objHas acc kv.1 then objSet acc kv.1 kv.2 else acc) next1
    (.vobj next2, [])
  | .escapeString key targetKeys =>
    let tks := normTargetKeys key targetKeys
    if ¬tks.isEmpty then
      let res := tks.foldl
        (fun (acc : List (String × Value) × List String) k =>
          if objHas acc.1 k then
            match objGet acc.1 k with
            | .vstr s => (objSet acc.1 k (.vstr (escapeStringValue s)), acc.2)
            | v =>
              if v.isContainer then
                match stringifyVal v with
                | some str => (objSet acc.1 k (.vstr str), acc.2)
                | none => (acc.1, acc.2 ++ ["转义失败: " ++ k])
              else acc
          else acc)
        (fields, [])
      (.vobj res.1, res.2)
    else
      let res := fields.foldl
        (fun acc (kv : String × Value) =>
          match kv.2 with
          | .vstr s => objSet acc kv.1 (.vstr (escapeStringValue s))
          | v =>
            if v.isContainer then
              match stringifyVal v with
              | some str => objSet acc kv.1 (.vstr str)
              | none => acc
            else acc)
        fields
      (.vobj res, [])
  | .unescapeString key targetKeys =>
    let tks := normTargetKeys key targetKeys
    if ¬tks.isEmpty then
      let res := tks.foldl
        (fun acc k =>
          match objGet acc k with
          | .vstr s => if objHas acc k then objSet acc k (.vstr (unescapeStringValue s)) else acc
          | _ => acc)
        fields
      (.vobj res, [])
    else
      let res := fields.foldl
        (fun acc (kv : String × Value) =>
          match kv.2 with
          | .vstr s => objSet acc kv.1 (.vstr (unescapeStringValue s))
          | _ => acc)
        fields
      (.vobj res, [])
  | .parseJSON key targetKeys =>
    let tks := normTargetKeys key targetKeys
    if ¬tks.isEmpty then
      let res := tks.foldl
        (fun acc k =>
          if objHas acc k then objSet acc k (smartParseValue (objGet acc k)) else acc)
        fields
      (.vobj res, [])
    else (smartParseValue (.vobj fields), [])

/-- The per-item callback of `applyBatch`'s `data.map`: records that are not
mappings (null, scalars, arrays) pass through unchanged with no warnings. -/
def applyRecord (action : BatchAction) (item : Value) : Value × List String :=
  match item with
  | .vobj fields => applyRecordObj action fields
  | v => (v, [])

/-- Embedding of the worker's `applyBatch`: each record is transformed
independently; warnings accumulate in record order. -/
def applyBatch (data : List Value) (action : BatchAction) :
    List Value × List String :=
  (data.map (fun item => (applyRecord action item).1),
   (data.map (fun item => (applyRecord action item).2)).flatten)

/-! ## FilterEngine (`src/store/fileStore.ts`) -/

/-- A filter rule; the operator is kept as a string so unrecognized operators
flow through the source's `default: return true` branch. -/
structure FilterRule where
  id : String
  field : String
  op : String
  value : String

/-- A filter group: groups are ANDed, rules within a group are ORed. -/
structure FilterGroup where
  id : String
  rules : List FilterRule

/-- Substring containment on character lists. -/
def listIsInfix (needle : List Char) : List Char → Bool
  | [] => needle.isEmpty
  | c :: t => needle.isPrefixOf (c :: t) || listIsInfix needle t

/-- JS `hay.includes(needle)`. -/
def strIncludes (hay needle : String) : Bool := listIsInfix needle.data hay.data

/-- The string form a rule is evaluated against:
`String(rec[rule.field] ?? "")`. -/
def ruleFieldString (record : Value) (field : String) : String :=
  jsToString
    (match jsGet record field with
     | .undef => .vstr ""
     | .vnull => .vstr ""
     | v => v)

/-- Embedding of `checkRule` from `recalculateFilteredData`: the field is
read by direct bracket access with the literal rule field string, coalesced
to the empty string, stringified, and compared per operator (all
case-insensitive except `equals`). -/
def checkRule (record : Value) (rule : FilterRule) : Bool :=
  let fieldValue := ruleFieldString record rule.field
  if rule.op = "contains" then strIncludes (lowerStr fieldValue) (lowerStr rule.value)
  else if rule.op = "equals" then fieldValue = rule.value
  else if rule.op = "startsWith" then startsWithStr (lowerStr fieldValue) (lowerStr rule.value)
  else if rule.op = "endsWith" then endsWithStr (lowerStr fieldValue) (lowerStr rule.value)
  else if rule.op = "notContains" then ¬strIncludes (lowerStr fieldValue) (lowerStr rule.value)
  else if rule.op = "isEmpty" then fieldValue.isEmpty || (jsTrim fieldValue).isEmpty
  else if rule.op = "isNotEmpty" then ¬fieldValue.isEmpty && ¬(jsTrim fieldValue).isEmpty
  else true

/-- `searchQuery.trim() !== "" || allRules.length > 0`. -/
def hasFilters (searchQuery : String) (groups : List FilterGroup) : Bool :=
  ¬(jsTrim searchQuery).isEmpty || ¬((groups.map FilterGroup.rules).flatten).isEmpty

/-- Whether one record passes the search query and the group rules, as in
the `data.forEach` body of `recalculateFilteredData`; records that are not
objects are skipped before this test. -/
def recordMatches (record : Value) (searchQuery : String)
    (groups : List FilterGroup) : Bool :=
  let matchesSearch :=
    if ¬(jsTrim searchQuery).isEmpty then
      strIncludes (lowerStr ((stringifyVal record).getD "")) (lowerStr searchQuery)
    else true
  if ¬matchesSearch then false
  else if groups.isEmpty then true
  else groups.all (fun g => g.rules.isEmpty || g.rules.any (fun r => checkRule record r))

/-- Embedding of `recalculateFilteredData`'s matched-index computation: with
no active filter the stored index list is empty; otherwise the original
dataset positions of the object records that pass search and rules, in
ascending order. -/
def recalcIndices (data : List Value) (searchQuery : String)
    (groups : List FilterGroup) : List Nat :=
  if ¬hasFilters searchQuery groups then []
  else
    (data.enum.filterMap fun p =>
      if p.2.isContainer ∧ recordMatches p.2 searchQuery groups then some p.1 else none)

/-- The filter-relevant slice of the store's state for the active file. -/
structure FilterState where
  data : List Value
  searchQuery : String
  filterGroups : List FilterGroup
  filteredIndices : List Nat

/-- Embedding of `commitFilterToData` (history bookkeeping omitted): with no
active filter it returns `false` and leaves the state alone; otherwise the
dataset is replaced — by the records at the matched indices when at least
one index matched, and by the full dataset when none did — and the search
query, groups and index list are cleared. -/
def commitFilterToData (st : FilterState) : FilterState × Bool :=
  if ¬hasFilters st.searchQuery st.filterGroups then (st, false)
  else
    let filteredData :=
      if 0 < st.filteredIndices.length then
        st.filteredIndices.map (fun i => st.data.getD i .undef)
      else st.data
    ({ data := filteredData, searchQuery := "", filterGroups := [],
       filteredIndices := [] }, true)

/-! ## nestFields (`src/store/fileStore.ts`) -/

/-- `Array.from(new Set(...))` with an explicit seen-set: a JS `Set` keeps
first occurrences in insertion order. -/
def dedupSeen (seen : List String) : List String → List String
  | [] => []
  | x :: xs => if x ∈ seen then dedupSeen seen xs else x :: dedupSeen (x :: seen) xs

/-- `Array.from(new Set(...))`: deduplicate keeping first occurrences. -/
def dedupKeepFirst (l : List String) : List String := dedupSeen [] l

/-- The cleaned source-field list of the store's `nestFields`: fields are
trimmed, blanks dropped, duplicates removed, and fields equal to the trimmed
target are excluded. -/
def nestFieldsClean (sourceFields : List String) (targetField : String) :
    List String :=
  (dedupKeepFirst ((sourceFields.map jsTrim).filter (fun f => ¬f.isEmpty))).filter
    (fun f => ¬f = jsTrim targetField)

/-- The per-record nesting step of the store's `nestFields`: moves each
cleaned field into the object stored at the target field (merging into an
existing mapping there), removing the originals; non-mapping records pass
through unchanged. -/
def nestFieldsRecord (cleaned : List String) (tgt : String) (record : Value) :
    Value :=
  match record with
  | .vobj fields =>
    let targetObject :=
      match objGet fields tgt with
      | .vobj fs2 => fs2
      | _ => []
    let res := cleaned.foldl
      (fun (acc : List (String × Value) × List (String × Value)) f =>
        (objRemove acc.1 f, objSet acc.2 f (objGet acc.1 f)))
      (fields, targetObject)
    .vobj (objSet res.1 tgt (.vobj res.2))
  | v => v

/-- Embedding of the store's `nestFields` dataset update: a no-op when the
trimmed target is blank or the cleaned source list is empty, otherwise the
per-record nesting applied to every record. -/
def nestFieldsData (sourceFields : List String) (targetField : String)
    (data : List Value) : List Value :=
  let t := jsTrim targetField
  let cleaned := nestFieldsClean sourceFields targetField
  if t.isEmpty ∨ cleaned.isEmpty then data
  else data.map (nestFieldsRecord cleaned t)

/-! ## Decidable equality of values -/

mutual

/-- Boolean equality on values. -/
def Value.beq : Value → Value → Bool
  | .undef, .undef => true
  | .vnull, .vnull => true
  | .vbool a, .vbool b => a == b
  | .vnum a, .vnum b => a == b
  | .vdec a, .vdec b => a == b
  | .vstr a, .vstr b => a == b
  | .varr xs ps, .varr ys qs => Value.beqList xs ys && Value.beqFields ps qs
  | .vobj fs, .vobj gs => Value.beqFields fs gs
  | _, _ => false

/-- Pointwise equality on value lists. -/
def Value.beqList : List Value → List Value → Bool
  | [], [] => true
  | x :: xs, y :: ys => Value.beq x y && Value.beqList xs ys
  | _, _ => false

/-- Pointwise equality on field lists. -/
def Value.beqFields : List (String × Value) → List (String × Value) → Bool
  | [], [] => true
  | (k, x) :: fs, (l, y) :: gs => k == l && Value.beq x y && Value.beqFields fs gs
  | _, _ => false

end

theorem Value.beqList_refl {xs : List Value} (h : ∀ x ∈ xs, Value.beq x x = true) :
    Value.beqList xs xs = true := by
  induction xs with
  | nil => rfl
  | cons x rest ih =>
    simp only [Value.beqList, Bool.and_eq_true]
    exact ⟨h x (by simp), ih (fun y hy => h y (by simp [hy]))⟩

theorem Value.beqFields_refl {fs : List (String × Value)}
    (h : ∀ p ∈ fs, Value.beq p.2 p.2 = true) : Value.beqFields fs fs = true := by
  induction fs with
  | nil => rfl
  | cons p rest ih =>
    obtain ⟨k, x⟩ := p
    simp only [Value.beqFields, Bool.and_eq_true]
    exact ⟨⟨by simp, h (k, x) (by simp)⟩, ih (fun q hq => h q (by simp [hq]))⟩

theorem Value.beq_refl : ∀ v : Value, Value.beq v v = true := by
  intro v
  induction v using Value.inductionOn with
  | hundef => rfl
  | hnull => rfl
  | hbool b => simp [Value.beq]
  | hnum n => simp [Value.beq]
  | hdec s => simp [Value.beq]
  | hstr s => simp [Value.beq]
  | harr xs props ih1 ih2 =>
    simp only [Value.beq, Bool.and_eq_true]
    exact ⟨Value.beqList_refl ih1, Value.beqFields_refl ih2⟩
  | hobj fields ih => exact Value.beqFields_refl ih

theorem Value.beqList_sound {xs : List Value}
    (h : ∀ x ∈ xs, ∀ w, Value.beq x w = true → x = w) :
    ∀ ys, Value.beqList xs ys = true → xs = ys := by
  induction xs with
  | nil => intro ys hy; cases ys <;> simp_all [Value.beqList]
  | cons x rest ih =>
    intro ys hy
    cases ys with
    | nil => simp [Value.beqList] at hy
    | cons y yrest =>
      simp only [Value.beqList, Bool.and_eq_true] at hy
      have h1 := h x (by simp) y hy.1
      have h2 := ih (fun z hz w hw => h z (by simp [hz]) w hw) yrest hy.2
      rw [h1, h2]

theorem Value.beqFields_sound {fs : List (String × Value)}
    (h : ∀ p ∈ fs, ∀ w, Value.beq p.2 w = true → p.2 = w) :
    ∀ gs, Value.beqFields fs gs = true → fs = gs := by
  induction fs with
  | nil => intro gs hg; cases gs <;> simp_all [Value.beqFields]
  | cons p rest ih =>
    intro gs hg
    obtain ⟨k, x⟩ := p
    cases gs with
    | nil => simp [Value.beqFields] at hg
    | cons q grest =>
      obtain ⟨l, y⟩ := q
      simp only [Value.beqFields, Bool.and_eq_true, beq_iff_eq] at hg
      have h1 := h (k, x) (by simp) y hg.1.2
      have h2 := ih (fun z hz w hw => h z (by simp [hz]) w hw) grest hg.2
      simp only at h1
      rw [hg.1.1, h1, h2]

theorem Value.beq_sound : ∀ v w : Value, Value.beq v w = true → v = w := by
  intro v
  induction v using Value.inductionOn with
  | hundef => intro w h; cases w <;> simp_all [Value.beq]
  | hnull => intro w h; cases w <;> simp_all [Value.beq]
  | hbool b => intro w h; cases w <;> simp_all [Value.beq]
  | hnum n => intro w h; cases w <;> simp_all [Value.beq]
  | hdec s => intro w h; cases w <;> simp_all [Value.beq]
  | hstr s => intro w h; cases w <;> simp_all [Value.beq]
  | harr xs props ih1 ih2 =>
    intro w h
    cases w with
    | varr ys qs =>
      simp only [Value.beq, Bool.and_eq_true] at h
      rw [Value.beqList_sound ih1 ys h.1, Value.beqFields_sound ih2 qs h.2]
    | undef => simp [Value.beq] at h
    | vnull => simp [Value.beq] at h
    | vbool b => simp [Value.beq] at h
    | vnum n => simp [Value.beq] at h
    | vdec s => simp [Value.beq] at h
    | vstr s => simp [Value.beq] at h
    | vobj gs => simp [Value.beq] at h
  | hobj fields ih =>
    intro w h
    cases w with
    | vobj gs =>
      simp only [Value.beq] at h
      rw [Value.beqFields_sound ih gs h]
    | undef => simp [Value.beq] at h
    | vnull => simp [Value.beq] at h
    | vbool b => simp [Value.beq] at h
    | vnum n => simp [Value.beq] at h
    | vdec s => simp [Value.beq] at h
    | vstr s => simp [Value.beq] at h
    | varr ys qs => simp [Value.beq] at h

instance : DecidableEq Value := fun v w =>
  if h : Value.beq v w = true then isTrue (Value.beq_sound v w h)
  else isFalse (fun he => h (he ▸ Value.beq_refl v))

/-! ## The claims -/

/-- The EAV scenario record of the flatten claim:
`{tags:[{label:"Title",value:"Hello"},{label:"Year",value:2024}]}`. -/
def tagsEavRecord : Value :=
  .vobj [("tags", .varr [
    .vobj [("label", .vstr "Title"), ("value", .vstr "Hello")],
    .vobj [("label", .vstr "Year"), ("value", .vnum 2024)]] [])]

theorem flattenObject_tags_eav :
    flattenObject (.varr [
        .vobj [("label", .vstr "Title"), ("value", .vstr "Hello")],
        .vobj [("label", .vstr "Year"), ("value", .vnum 2024)]] []) "tags" [] none 0 true
    = [("tags.0.Title", .vstr "Hello"), ("tags.1.Year", .vnum 2024)] := by
  simp [flattenObject, flattenFold, jsEntries, arrEntries, isEAVObject, eavLabel, eavValue,
    trimChars, jsWsChar, depthReached, Value.isContainer, objHas, objGet, objSet]
  decide

/-- C1: `flattenStrip` with `targetKeys ["tags"]`, `useSmartEAV` and
`keepPrefix` true, applied to the record
`{tags:[{label:"Title",value:"Hello"},{label:"Year",value:2024}]}`, flattens
an EAV element under a key that KEEPS the array index
(`tags.0.Title` / `tags.1.Year`): the prefix handed to the EAV branch is
`tags.0`, not `tags`, so the output differs from the claimed
`{"tags.Title":"Hello","tags.Year":2024}`. -/
theorem C1_flattenStrip_eav_keeps_index :
    applyBatch [tagsEavRecord]
        (.flattenStrip none none none (some ["tags"]) (some true) (some true))
      = ([.vobj [("tags.0.Title", .vstr "Hello"), ("tags.1.Year", .vnum 2024)]], []) ∧
    applyBatch [tagsEavRecord]
        (.flattenStrip none none none (some ["tags"]) (some true) (some true))
      ≠ ([.vobj [("tags.Title", .vstr "Hello"), ("tags.Year", .vnum 2024)]], []) := by
  have h : applyBatch [tagsEavRecord]
        (.flattenStrip none none none (some ["tags"]) (some true) (some true))
      = ([.vobj [("tags.0.Title", .vstr "Hello"), ("tags.1.Year", .vnum 2024)]], []) := by
    simp only [tagsEavRecord, applyBatch, applyRecord, applyRecordObj, normTargetKeys,
      List.map, List.flatten, List.isEmpty, List.foldl, objHas, objGet, Value.isContainer,
      Bool.not_false, objRemove, objAssign, objSet]
    simp
    rw [flattenObject_tags_eav]
    simp [objSet]
  exact ⟨h, by rw [h]; decide⟩

/-- C2 (counterexample): a rule with field `"a.b"` and operator `equals "x"`
does NOT match the record `{a:{b:"x"}}`, although the dot-addressed value
`record.a.b` is exactly `"x"` (as `getValueByPath` confirms): `checkRule`
looks the field up as a literal top-level key. -/
theorem C2_counterexample :
    checkRule (.vobj [("a", .vobj [("b", .vstr "x")])]) ⟨"r1", "a.b", "equals", "x"⟩ = false ∧
    getValueByPath (.vobj [("a", .vobj [("b", .vstr "x")])]) "a.b" = .vstr "x" := by
  decide

/-- C2: rule evaluation resolves the field by direct bracket access with the
literal (possibly dot-containing) field string — the outcome on any record
coincides with the outcome on the flat record holding just that one
directly-accessed property.  No dot-path traversal happens. -/
theorem C2_rule_field_flat_lookup (record : Value) (rule : FilterRule) :
    checkRule record rule =
      checkRule (.vobj [(rule.field, jsGet record rule.field)]) rule := by
  have h : ruleFieldString (.vobj [(rule.field, jsGet record rule.field)]) rule.field
      = ruleFieldString record rule.field := by
    simp [ruleFieldString, jsGet, objGet]
  simp only [checkRule, h]

/-- C3: the set-then-get round trip holds for every value, path and written
value, including the tested edge case: setting at `["a","b"]` when `v.a` is
a string replaces `v.a` with the mapping `{b: x}`. -/
theorem C3_set_get_roundtrip (v x : Value) (p : List PathPart) :
    getAtPath (setAtPath v p x) p = x ∧
    setAtPath (.vobj [("a", .vstr "s")]) [.str "a", .str "b"] x
      = .vobj [("a", .vobj [("b", x)])] := by
  refine ⟨getAtPath_setAtPath v p x, ?_⟩
  simp [setAtPath, PathPart.objKey, objGet, objSet]

/-- C4: `unescapeStringValue` is a left inverse of `escapeStringValue` on
every string, in particular strings holding quotes, backslashes, newlines,
tabs or carriage returns. -/
theorem C4_escape_unescape_roundtrip (s : String) :
    unescapeStringValue (escapeStringValue s) = s := by
  show String.mk (unescapeChars (escapeChars s.data)) = s
  rw [unescapeChars_escapeChars]

/-- C5: the smart recursive parse of `parseJSON` is idempotent on every
value. -/
theorem C5_smartParseValue_idempotent (v : Value) :
    smartParseValue (smartParseValue v) = smartParseValue v :=
  (smartParse_idem_aux v.msize).1 v (Nat.le_refl _)

/-- C6 (counterexample): with one rule active and zero matching records, the
matched-index list is empty, yet committing keeps the FULL dataset (the
claim says the dataset becomes empty). -/
theorem C6_counterexample :
    recalcIndices [Value.vobj [("a", Value.vstr "x")]] ""
        [⟨"g", [⟨"r", "a", "equals", "zzz"⟩]⟩] = [] ∧
    (commitFilterToData ⟨[Value.vobj [("a", Value.vstr "x")]], "",
        [⟨"g", [⟨"r", "a", "equals", "zzz"⟩]⟩], []⟩).1.data
      = [Value.vobj [("a", Value.vstr "x")]] := by
  decide

/-- C6: whenever a filter is active, the commit-filter operation reports
success and clears the search query, the groups and the index list; the
dataset is replaced by the records at the matched indices when at least one
index matched, and is left as the full dataset when the matched-index list
is empty. -/
theorem C6_commit_filter (st : FilterState)
    (h : hasFilters st.searchQuery st.filterGroups = true) :
    commitFilterToData st =
      (⟨(if st.filteredIndices.isEmpty then st.data
         else st.filteredIndices.map (fun i => st.data.getD i .undef)), "", [], []⟩, true) := by
  cases hl : st.filteredIndices <;>
    simp [commitFilterToData, h, hl]

theorem C6_commit_filter_witness :
    commitFilterToData ⟨[Value.vobj [("a", Value.vstr "x")], Value.vobj [("a", Value.vstr "y")]],
        "", [⟨"g", [⟨"r", "a", "equals", "y"⟩]⟩], [1]⟩
      = (⟨[Value.vobj [("a", Value.vstr "y")]], "", [], []⟩, true) := by
  have h := C6_commit_filter
    ⟨[Value.vobj [("a", Value.vstr "x")], Value.vobj [("a", Value.vstr "y")]],
        "", [⟨"g", [⟨"r", "a", "equals", "y"⟩]⟩], [1]⟩ (by decide)
  simpa using h

/-- C7: `typeConvert` to `"number"` on a record where the key is present
leaves the value unchanged and warns `"无法转换为数字: <value>"` when the
numeric coercion is NaN, and replaces the value by the coerced number
otherwise; on the dataset `[{a:"1"},{a:"x"}]` row 0 becomes `{a:1}` and
row 1 stays `{a:"x"}` with exactly that one warning. -/
theorem C7_typeConvert_number (fields : List (String × Value)) (key : String)
    (h : objHas fields key = true) :
    (jsToNumber (objGet fields key) = none →
      applyRecordObj (.typeConvert key "number") fields =
        (.vobj fields, ["无法转换为数字: " ++ jsToString (objGet fields key)])) ∧
    (∀ nv : Value, jsToNumber (objGet fields key) = some nv →
      applyRecordObj (.typeConvert key "number") fields =
        (.vobj (objSet fields key nv), [])) ∧
    applyBatch [.vobj [("a", .vstr "1")], .vobj [("a", .vstr "x")]]
        (.typeConvert "a" "number")
      = ([.vobj [("a", .vnum 1)], .vobj [("a", .vstr "x")]], ["无法转换为数字: x"]) := by
  refine ⟨fun hn => ?_, fun nv hn => ?_, by decide⟩
  · simp [applyRecordObj, h, hn]
  · simp [applyRecordObj, h, hn]

theorem C7_typeConvert_number_witness :
    applyRecordObj (.typeConvert "a" "number") [("a", Value.vstr "x")] =
      (.vobj [("a", Value.vstr "x")],
       ["无法转换为数字: " ++ jsToString (objGet [("a", Value.vstr "x")] "a")]) :=
  (C7_typeConvert_number [("a", .vstr "x")] "a" (by decide)).1 (by decide)

/-- C8: the store's `nestFields` excludes source fields equal to the
(trimmed) target from the cleaned source list, and is a no-op on the whole
dataset when the trimmed target is blank or the cleaned source list is
empty. -/
theorem C8_nestFields_exclusion_noop (sourceFields : List String)
    (targetField : String) (data : List Value) :
    (∀ f ∈ nestFieldsClean sourceFields targetField, ¬f = jsTrim targetField) ∧
    (((jsTrim targetField).isEmpty ∨ (nestFieldsClean sourceFields targetField).isEmpty) →
      nestFieldsData sourceFields targetField data = data) := by
  constructor
  · intro f hf
    have := List.of_mem_filter hf
    simpa using this
  · intro hcond
    rcases hcond with hc | hc
    · simp [nestFieldsData, hc]
    · simp [nestFieldsData, hc]

theorem C8_nestFields_exclusion_noop_witness :
    nestFieldsData ["t", " t "] "t" [Value.vobj [("a", Value.vstr "v")]]
      = [Value.vobj [("a", Value.vstr "v")]] :=
  (C8_nestFields_exclusion_noop ["t", " t "] "t" [Value.vobj [("a", Value.vstr "v")]]).2
    (by decide)

/-- C9: `applyBatch` preserves the dataset length, derives each output
position solely from the input record at the same position (through the
per-record callback), and passes every non-mapping record through
unchanged. -/
theorem C9_applyBatch_shape (data : List Value) (action : BatchAction) :
    (applyBatch data action).1.length = data.length ∧
    (∀ i : Nat, (applyBatch data action).1[i]? =
      (data[i]?).map (fun v => (applyRecord action v).1)) ∧
    (∀ i : Nat, ∀ v : Value, data[i]? = some v → v.isMapping = false →
      (applyBatch data action).1[i]? = some v) := by
  refine ⟨by simp [applyBatch], fun i => by simp [applyBatch], fun i v hv hm => ?_⟩
  simp only [applyBatch, List.getElem?_map, hv, Option.map_some']
  cases v with
  | vobj fields => simp [Value.isMapping] at hm
  | undef => rfl
  | vnull => rfl
  | vbool b => rfl
  | vnum n => rfl
  | vdec s => rfl
  | vstr s => rfl
  | varr xs props => rfl

theorem C9_applyBatch_shape_witness :
    (applyBatch [Value.vnull] (.deleteField ["a"])).1[0]? = some Value.vnull :=
  (C9_applyBatch_shape [Value.vnull] (.deleteField ["a"])).2.2 0 Value.vnull rfl rfl

/-- C10: with an active filter, a record that is not object-typed (here:
anything but a mapping or an array) never appears in the matched index
list, even when its serialized form contains the search query and its rules
are ones a missing field would satisfy. -/
theorem C10_nonobject_never_matched (data : List Value) (sq : String)
    (groups : List FilterGroup) (i : Nat) (v : Value)
    (hf : hasFilters sq groups = true) (hv : data[i]? = some v)
    (hnc : v.isContainer = false) :
    i ∉ recalcIndices data sq groups := by
  intro hmem
  rw [recalcIndices, if_neg (not_not_intro hf)] at hmem
  rw [List.mem_filterMap] at hmem
  obtain ⟨p, hpmem, hpeq⟩ := hmem
  split at hpeq
  · rename_i hcond
    simp only [Option.some.injEq] at hpeq
    subst hpeq
    have hget : data[p.1]? = some p.2 := List.mem_enum_iff_getElem?.mp hpmem
    rw [hv] at hget
    simp only [Option.some.injEq] at hget
    subst hget
    rw [hnc] at hcond
    simp at hcond
  · exact Option.noConfusion hpeq

theorem C10_nonobject_never_matched_witness :
    hasFilters "a" [⟨"g", [⟨"r", "f", "isEmpty", ""⟩]⟩] = true ∧
    0 ∉ recalcIndices [Value.vstr "A"] "a" [⟨"g", [⟨"r", "f", "isEmpty", ""⟩]⟩] :=
  ⟨by decide,
   C10_nonobject_never_matched [Value.vstr "A"] "a" [⟨"g", [⟨"r", "f", "isEmpty", ""⟩]⟩]
     0 (Value.vstr "A") (by decide) rfl (by decide)⟩
